import Mathlib

/-!
Shallow embedding of the `the_key` Rust crate (src/lib.rs and
src/formatting.rs): a composite-key builder for key-value storages.
A key sequence holds a fixed schema of named byte parts plus optional
runtime extensions; `create_key` concatenates schema bytes, extension
bytes and a caller-supplied terminal key into one buffer, returning a
`Key` that remembers the terminal length.

Modelling conventions: bytes are `Nat` values (the code only copies
bytes, never computes with them), byte buffers are `List Nat`, and
`&'static str` names are `String`.  The `define_key_part!` and
`define_key_seq!` macros generate one struct per schema; the embedding
replaces the macro-generated family by a single `KeySeq` value carrying
the schema list, which is what every generated instance stores
(lib.rs 264-290).  Rust slice operations that can panic are mirrored
both by the source's direct (truncating `Nat` subtraction) form and by
`Option`-valued checked forms used to reason about panic freedom.
-/

/-- `KeyPartItem` (lib.rs 61): a part name paired with its static bytes. -/
abbrev KeyPartItem : Type := String × List Nat

/-- `KeyExtensionsItem` (lib.rs 62): an extension name paired with its owned bytes. -/
abbrev KeyExtensionsItem : Type := String × List Nat

/-- The sequence struct generated by `define_key_seq!` (lib.rs 264-269):
the fixed schema `parts`, the optional growable `extensions` list and the
cached total byte length `len`. -/
structure KeySeq where
  parts : List KeyPartItem
  extensions : Option (List KeyExtensionsItem)
  len : Nat
deriving DecidableEq

/-- `Key` (lib.rs 134-140): the finished buffer `bytes`, the terminal
length `key_len` and the borrowed extension list.  The `PhantomData`
type tag carries no data and is dropped. -/
structure Key where
  bytes : List Nat
  key_len : Nat
  extensions : Option (List KeyExtensionsItem)
deriving DecidableEq

/-- `Key::new` (lib.rs 143-150): stores the three fields unchecked. -/
def Key.new (bytes : List Nat) (key_len : Nat)
    (extensions : Option (List KeyExtensionsItem)) : Key :=
  ⟨bytes, key_len, extensions⟩

/-- `Key::get_key` (lib.rs 153-155): the slice `bytes[bytes.len() - key_len ..]`. -/
def Key.get_key (k : Key) : List Nat :=
  k.bytes.drop (k.bytes.length - k.key_len)

/-- `Key::get_prefix` (lib.rs 158-160): the slice `bytes[.. bytes.len() - key_len]`. -/
def Key.get_prefix (k : Key) : List Nat :=
  k.bytes.take (k.bytes.length - k.key_len)

/-- `Key::to_vec` (lib.rs 163-165): moves out the whole buffer. -/
def Key.to_vec (k : Key) : List Nat :=
  k.bytes

/-- `AsRef<[u8]> for Key` (lib.rs 185-189): the whole buffer as a slice. -/
def Key.as_ref (k : Key) : List Nat :=
  k.bytes

/-- `get_key` with Rust's panic made explicit: computing
`bytes.len() - key_len` in `usize` and slicing `&bytes[start ..]`
panics exactly when `key_len > bytes.len()` (debug underflow, or a
start index past the end in release); `none` models the panic. -/
def Key.get_key_checked (k : Key) : Option (List Nat) :=
  if k.key_len ≤ k.bytes.length then
    some (k.bytes.drop (k.bytes.length - k.key_len))
  else
    none

/-- `get_prefix` with Rust's panic made explicit, as in `get_key_checked`. -/
def Key.get_prefix_checked (k : Key) : Option (List Nat) :=
  if k.key_len ≤ k.bytes.length then
    some (k.bytes.take (k.bytes.length - k.key_len))
  else
    none

/-- `new()` from `define_key_seq!` (lib.rs 272-290): builds the instance
from the fixed schema with no extensions, accumulating the parts' byte
lengths into `len`. -/
def KeySeq.new (schema : List KeyPartItem) : KeySeq :=
  ⟨schema, none, schema.foldl (fun len p => len + p.2.length) 0⟩

/-- `get_struct` (lib.rs 304-313): the ordered schema items of the
sequence type. -/
def KeySeq.get_struct (s : KeySeq) : List KeyPartItem :=
  s.parts

/-- `get_extensions` (lib.rs 315-317). -/
def KeySeq.get_extensions (s : KeySeq) : Option (List KeyExtensionsItem) :=
  s.extensions

/-- `extend` (lib.rs 319-333): appends one named runtime segment after
any existing extensions and grows the cached length by the segment's
byte length. -/
def KeySeq.extend (s : KeySeq) (key_part_name : String) (bytes : List Nat) : KeySeq :=
  ⟨s.parts,
   match s.extensions with
   | some exts => some (exts ++ [(key_part_name, bytes)])
   | none => some [(key_part_name, bytes)],
   s.len + bytes.length⟩

/-- `create_key` (lib.rs 335-356): concatenates schema part bytes in
declared order, then extension bytes in append order, then the supplied
terminal `key`, and wraps the buffer in a `Key` whose `key_len` is the
terminal's length. -/
def KeySeq.create_key (s : KeySeq) (key : List Nat) : Key :=
  let result_key : List Nat := s.parts.foldl (fun acc p => acc ++ p.2) []
  let result_key : List Nat :=
    match s.extensions with
    | some exts => exts.foldl (fun acc p => acc ++ p.2) result_key
    | none => result_key
  Key.new (result_key ++ key) key.length s.extensions

/-- Rust `Debug` rendering of a byte slice, e.g. `[10, 20]`
(formatting.rs uses `format!` with the `Debug` of `&[u8]`). -/
def renderBytes (bytes : List Nat) : String :=
  "[" ++ String.intercalate ", " (bytes.map toString) ++ "]"

/-- One schema or extension item rendered as `Name[bytes]`
(formatting.rs 8-22). -/
def renderPart (p : KeyPartItem) : String :=
  p.1 ++ renderBytes p.2

/-- The item strings assembled by `format_struct` (formatting.rs 7-32)
before mode selection, as invoked by lib.rs.  The checked-in
formatting.rs declares its middle parameter as one optional suffix byte
string (an older variant of the crate); lib.rs passes the sequence's
extension-item list there (lib.rs 130, 176-181) and its tests show each
extension rendered as a further `Name[bytes]` item counted into the
prefix length, so the embedding takes the extension-list form.  The
prefix length accumulates the byte length of every item handed to the
formatter; an optional terminal `(buffer, len)` pair contributes a final
`Key=` segment rendering the buffer's tail after the prefix length (the
`len` component of the pair is never read). -/
def formatItems (parts : List KeyPartItem)
    (extensions : Option (List KeyExtensionsItem))
    (key : Option (List Nat × Nat)) : List String :=
  let all := parts ++ extensions.getD []
  let prefix_len := all.foldl (fun acc p => acc + p.2.length) 0
  let items := all.map renderPart
  match key with
  | some kb => items ++ ["Key=" ++ renderBytes (kb.1.drop prefix_len)]
  | none => items

/-- The alternate-mode loop of `format_struct` (formatting.rs 34-55):
the counter `i` starts at 0 and grows by 2 per item; each item is
written as newline marker (empty for the first item), `i` spaces, corner
marker (empty for the first item), then the item itself. -/
def prettyGo (i : Nat) (items : List String) : String :=
  match items with
  | [] => ""
  | part :: rest =>
    (if i = 0 then "" else "\n")
      ++ String.mk (List.replicate i ' ')
      ++ (if i = 0 then "" else "└ ")
      ++ part
      ++ prettyGo (i + 2) rest

/-- `format_struct` (formatting.rs 7-61): assembles the item strings and
renders them either as the alternate-mode tree or joined with `" -> "`. -/
def format_struct (parts : List KeyPartItem)
    (extensions : Option (List KeyExtensionsItem))
    (key : Option (List Nat × Nat)) (alternate : Bool) : String :=
  let items := formatItems parts extensions key
  if alternate then prettyGo 0 items else String.intercalate " -> " items

/-- `fmt_debug` for a sequence (lib.rs 123-131, 359-367): delegates to
`format_struct` with the schema, the extensions and no terminal key. -/
def KeySeq.fmt_debug (s : KeySeq) (alternate : Bool) : String :=
  format_struct s.parts s.extensions none alternate

/-- `Debug for Key` (lib.rs 174-183): delegates to `format_struct` with
the producing sequence type's schema, the key's extensions and the full
buffer paired with its length. -/
def Key.debug_fmt (schema : List KeyPartItem) (k : Key) (alternate : Bool) : String :=
  format_struct schema k.extensions (some (k.bytes, k.bytes.length)) alternate

/-- Helper: the extension list of a sequence, empty when `none`. -/
def extList (s : KeySeq) : List KeyExtensionsItem :=
  s.extensions.getD []

/-- Helper: concatenation of the byte components of a list of items. -/
def concatBytes : List KeyPartItem → List Nat
  | [] => []
  | p :: rest => p.2 ++ concatBytes rest

/-- Helper: total byte length of a list of items. -/
def bytesLen : List KeyPartItem → Nat
  | [] => 0
  | p :: rest => p.2.length + bytesLen rest

/-- Helper: any finite sequence of `extend` calls, applied in order. -/
def KeySeq.extendAll (s : KeySeq) (es : List KeyExtensionsItem) : KeySeq :=
  es.foldl (fun acc e => acc.extend e.1 e.2) s

/-- The compact rendering as the spec states it: each item as the name
immediately followed by the bracketed, comma-separated byte list, joined
with the literal separator. -/
def compactSpec (items : List KeyPartItem) : String :=
  String.intercalate " -> "
    (items.map (fun it =>
      it.1 ++ "[" ++ String.intercalate ", " (it.2.map toString) ++ "]"))

/-- The pretty rendering's tail as the spec states it: the item at
position `j ≥ 1` on its own line, indented by `2 * j` spaces, prefixed
with the corner marker. -/
def prettySpecTail (j : Nat) : List String → String
  | [] => ""
  | p :: rest =>
    "\n" ++ String.mk (List.replicate (2 * j) ' ') ++ "└ " ++ p
      ++ prettySpecTail (j + 1) rest

/-- The pretty rendering as the spec states it: the first item bare,
then the staircase tail starting at position 1. -/
def prettySpec : List String → String
  | [] => ""
  | x :: rest => x ++ prettySpecTail 1 rest

/-! ### Basic lemmas about the helpers and the operations -/

theorem foldl_append_concatBytes (items : List KeyPartItem) :
    ∀ acc : List Nat,
      List.foldl (fun a p => a ++ p.2) acc items = acc ++ concatBytes items := by
  induction items with
  | nil => intro acc; simp [concatBytes]
  | cons p rest ih =>
      intro acc
      simp [concatBytes, List.foldl_cons, ih (acc ++ p.2)]

theorem foldl_add_bytesLen (items : List KeyPartItem) :
    ∀ n : Nat,
      List.foldl (fun a p => a + p.2.length) n items = n + bytesLen items := by
  induction items with
  | nil => intro n; simp [bytesLen]
  | cons p rest ih =>
      intro n
      simp [bytesLen, List.foldl_cons, ih (n + p.2.length)]
      omega

theorem concatBytes_append (l1 l2 : List KeyPartItem) :
    concatBytes (l1 ++ l2) = concatBytes l1 ++ concatBytes l2 := by
  induction l1 with
  | nil => simp [concatBytes]
  | cons p rest ih => simp [concatBytes, ih]

theorem bytesLen_append (l1 l2 : List KeyPartItem) :
    bytesLen (l1 ++ l2) = bytesLen l1 + bytesLen l2 := by
  induction l1 with
  | nil => simp [bytesLen]
  | cons p rest ih => simp [bytesLen, ih]; omega

theorem length_concatBytes (l : List KeyPartItem) :
    (concatBytes l).length = bytesLen l := by
  induction l with
  | nil => rfl
  | cons p rest ih => simp [concatBytes, bytesLen, ih]

theorem create_key_eq (s : KeySeq) (K : List Nat) :
    s.create_key K
      = Key.new (concatBytes s.parts ++ (concatBytes (extList s) ++ K))
          K.length s.extensions := by
  unfold KeySeq.create_key
  cases h : s.extensions with
  | none =>
      simp [h, extList, foldl_append_concatBytes, concatBytes]
  | some exts =>
      simp [h, extList, foldl_append_concatBytes, List.append_assoc]

theorem extend_parts (s : KeySeq) (n : String) (b : List Nat) :
    (s.extend n b).parts = s.parts := rfl

theorem extend_len (s : KeySeq) (n : String) (b : List Nat) :
    (s.extend n b).len = s.len + b.length := rfl

theorem extend_extList (s : KeySeq) (n : String) (b : List Nat) :
    extList (s.extend n b) = extList s ++ [(n, b)] := by
  cases h : s.extensions <;> simp [KeySeq.extend, extList, h]

theorem extendAll_parts (es : List KeyExtensionsItem) :
    ∀ s : KeySeq, (s.extendAll es).parts = s.parts := by
  induction es with
  | nil => intro s; rfl
  | cons e rest ih =>
      intro s
      simpa [KeySeq.extendAll, List.foldl_cons] using ih (s.extend e.1 e.2)

theorem extendAll_extList (es : List KeyExtensionsItem) :
    ∀ s : KeySeq, extList (s.extendAll es) = extList s ++ es := by
  induction es with
  | nil => intro s; simp [KeySeq.extendAll]
  | cons e rest ih =>
      intro s
      have h1 : s.extendAll (e :: rest) = (s.extend e.1 e.2).extendAll rest := by
        simp [KeySeq.extendAll, List.foldl_cons]
      rw [h1, ih (s.extend e.1 e.2), extend_extList]
      simp

theorem extendAll_len (es : List KeyExtensionsItem) :
    ∀ s : KeySeq, (s.extendAll es).len = s.len + bytesLen es := by
  induction es with
  | nil => intro s; simp [KeySeq.extendAll, bytesLen]
  | cons e rest ih =>
      intro s
      have h1 : s.extendAll (e :: rest) = (s.extend e.1 e.2).extendAll rest := by
        simp [KeySeq.extendAll, List.foldl_cons]
      rw [h1, ih (s.extend e.1 e.2), extend_len]
      simp [bytesLen]
      omega

theorem new_parts (S : List KeyPartItem) : (KeySeq.new S).parts = S := rfl

theorem new_extList (S : List KeyPartItem) : extList (KeySeq.new S) = [] := rfl

theorem new_len (S : List KeyPartItem) : (KeySeq.new S).len = bytesLen S := by
  simpa [KeySeq.new] using foldl_add_bytesLen S 0

theorem drop_append_length (P K : List Nat) :
    (P ++ K).drop ((P ++ K).length - K.length) = K := by
  simp [List.length_append, Nat.add_sub_cancel, List.drop_left]

theorem take_append_length (P K : List Nat) :
    (P ++ K).take ((P ++ K).length - K.length) = P := by
  simp [List.length_append, Nat.add_sub_cancel, List.take_left]

theorem get_key_create_key (s : KeySeq) (K : List Nat) :
    (s.create_key K).get_key = K := by
  rw [create_key_eq]
  simp only [Key.get_key, Key.new]
  rw [← List.append_assoc]
  exact drop_append_length _ K

theorem get_prefix_create_key (s : KeySeq) (K : List Nat) :
    Key.get_prefix (s.create_key K) = concatBytes s.parts ++ concatBytes (extList s) := by
  rw [create_key_eq]
  simp only [Key.get_prefix, Key.new]
  rw [← List.append_assoc]
  exact take_append_length _ K

/-! ### The claims -/

/-- C1: for every sequence built from a schema `S`, every chain of
`extend` calls appending `E1..En` in order and every terminal byte
sequence `K` (the empty one included), `create_key(K).to_vec()` is the
concatenation of the schema part bytes in declared order, the extension
bytes in append order and `K`. -/
theorem c1_create_key_concatenation (S E : List KeyPartItem) (K : List Nat) :
    (((KeySeq.new S).extendAll E).create_key K).to_vec
      = concatBytes S ++ (concatBytes E ++ K) := by
  rw [create_key_eq]
  simp [Key.to_vec, Key.new, extendAll_parts, extendAll_extList, new_parts, new_extList]

/-- C2: for every sequence with schema `S` and extensions `E1..En` and
every terminal `K`, the key minted by `create_key` answers `get_key()`
with exactly `K` (the last `key_len` bytes) and `get_prefix()` with
exactly the schema bytes followed by the extension bytes. -/
theorem c2_accessors (S E : List KeyPartItem) (K : List Nat) :
    (((KeySeq.new S).extendAll E).create_key K).get_key = K
    ∧ Key.get_prefix (((KeySeq.new S).extendAll E).create_key K)
        = concatBytes S ++ concatBytes E := by
  refine ⟨get_key_create_key _ _, ?_⟩
  rw [get_prefix_create_key]
  simp [extendAll_parts, extendAll_extList, new_parts, new_extList]

/-- C3: every instance reachable by `new()` followed by any number of
`extend` calls has its cached `len` equal to the schema byte length plus
the sum of the extension byte lengths; `new()` establishes the invariant
(the `E = []` case) and each `extend` grows `len` by exactly the
appended segment's length while appending the segment at the end of the
extension list, never removing or reordering anything. -/
theorem c3_len_invariant (S E : List KeyPartItem) :
    ((KeySeq.new S).extendAll E).len = bytesLen S + bytesLen E
    ∧ ((KeySeq.new S).extendAll E).parts = S
    ∧ extList ((KeySeq.new S).extendAll E) = E
    ∧ ∀ (n : String) (b : List Nat),
        (((KeySeq.new S).extendAll E).extend n b).len
          = ((KeySeq.new S).extendAll E).len + b.length
        ∧ extList (((KeySeq.new S).extendAll E).extend n b) = E ++ [(n, b)] := by
  refine ⟨?_, ?_, ?_, ?_⟩
  · rw [extendAll_len, new_len]
  · rw [extendAll_parts, new_parts]
  · rw [extendAll_extList]; simp [new_extList]
  · intro n b
    refine ⟨extend_len _ n b, ?_⟩
    rw [extend_extList, extendAll_extList]
    simp [new_extList]

/-- C8: `create_key` is total: for every sequence instance and every
caller byte sequence, the zero-length one included, it returns a `Key`
with `key_len` equal to the terminal's length and a buffer of the
expected size; the embedding needs no error type because the source has
no fallible branch. -/
theorem c8_create_key_total (s : KeySeq) (K : List Nat) :
    (s.create_key K).key_len = K.length
    ∧ (s.create_key K).bytes.length
        = bytesLen s.parts + bytesLen (extList s) + K.length
    ∧ (s.create_key []).key_len = 0 := by
  refine ⟨?_, ?_, ?_⟩
  · rw [create_key_eq]; rfl
  · rw [create_key_eq]
    simp [Key.new, List.length_append, length_concatBytes]
    omega
  · rw [create_key_eq]; rfl

/-- C9: for every `Key` whose `key_len` is at most the buffer length (as
holds for every `Key` minted by `create_key`), `get_prefix()` followed
by `get_key()` reassembles the full buffer returned by `as_ref()`, and
`to_vec()` returns that same buffer. -/
theorem c9_prefix_key_buffer (k : Key) (h : k.key_len ≤ k.bytes.length) :
    Key.get_prefix k ++ k.get_key = k.as_ref ∧ k.to_vec = k.as_ref := by
  constructor
  · simp [Key.get_prefix, Key.get_key, Key.as_ref, List.take_append_drop]
  · rfl

theorem c9_prefix_key_buffer_witness :
    (Key.new [1, 2, 3] 1 none).key_len ≤ (Key.new [1, 2, 3] 1 none).bytes.length
    ∧ (Key.get_prefix (Key.new [1, 2, 3] 1 none) ++ (Key.new [1, 2, 3] 1 none).get_key
          = (Key.new [1, 2, 3] 1 none).as_ref
        ∧ (Key.new [1, 2, 3] 1 none).to_vec = (Key.new [1, 2, 3] 1 none).as_ref) :=
  ⟨by decide, c9_prefix_key_buffer (Key.new [1, 2, 3] 1 none) (by decide)⟩

/-- C10: `Key::new` is an unchecked constructor: the slice accessors are
panic-free exactly when `key_len ≤ bytes.len()` (modelled by the checked
accessors answering `some`); every `Key` minted by `create_key`
satisfies the precondition and its checked accessors agree with the
unchecked ones, while a direct `Key::new` with an oversized `key_len`
makes both accessors panic. -/
theorem c10_unchecked_constructor :
    (∀ (b : List Nat) (kl : Nat) (e : Option (List KeyExtensionsItem)),
        ((Key.new b kl e).get_key_checked.isSome ↔ kl ≤ b.length)
        ∧ ((Key.new b kl e).get_prefix_checked.isSome ↔ kl ≤ b.length))
    ∧ (∀ (s : KeySeq) (K : List Nat),
        (s.create_key K).key_len ≤ (s.create_key K).bytes.length
        ∧ (s.create_key K).get_key_checked = some ((s.create_key K).get_key)
        ∧ (s.create_key K).get_prefix_checked
            = some ( Key.get_prefix (s.create_key K)))
    ∧ (Key.new [1] 2 none).get_key_checked = none
    ∧ (Key.new [1] 2 none).get_prefix_checked = none := by
  refine ⟨?_, ?_, by decide, by decide⟩
  · intro b kl e
    constructor
    · by_cases h : kl ≤ b.length <;>
        simp [Key.new, Key.get_key_checked, h]
    · by_cases h : kl ≤ b.length <;>
        simp [Key.new, Key.get_prefix_checked, h]
  · intro s K
    have hk : (s.create_key K).key_len ≤ (s.create_key K).bytes.length := by
      rw [create_key_eq]
      simp [Key.new, List.length_append]
      omega
    refine ⟨hk, ?_, ?_⟩
    · simp [Key.get_key_checked, Key.get_key, hk]
    · simp [Key.get_prefix_checked, Key.get_prefix, hk]

/-- C7 counterexample: two keys of the same sequence type (schema
`P=[1]`) with identical underlying buffers that are nevertheless
distinct values, because `key_len` and the extension record differ; so
buffer equality does not determine `Key` equality. -/
theorem c7_bytewise_equality_counterexample :
    ((KeySeq.new [("P", [1])]).create_key [9]).bytes
      = (((KeySeq.new [("P", [1])]).extend "E" [9]).create_key []).bytes
    ∧ ((KeySeq.new [("P", [1])]).create_key [9])
      ≠ (((KeySeq.new [("P", [1])]).extend "E" [9]).create_key []) := by
  decide

/-- C7 amended: the code derives neither equality nor ordering for
`Key`; as values, equal Keys necessarily have equal buffers, but equal
buffers do not imply equal Keys. This theorem is the surviving forward
direction. -/
theorem c7_equal_keys_equal_buffers (k1 k2 : Key) (h : k1 = k2) :
    k1.bytes = k2.bytes := by
  rw [h]

theorem c7_equal_keys_equal_buffers_witness :
    (Key.new [1] 1 none = Key.new [1] 1 none)
    ∧ (Key.new [1] 1 none).bytes = (Key.new [1] 1 none).bytes :=
  ⟨rfl, c7_equal_keys_equal_buffers (Key.new [1] 1 none) (Key.new [1] 1 none) rfl⟩

theorem formatItems_with_key (parts : List KeyPartItem)
    (exts : Option (List KeyExtensionsItem)) (buf : List Nat) (n : Nat) :
    formatItems parts exts (some (buf, n))
      = (parts ++ exts.getD []).map renderPart
          ++ ["Key=" ++ renderBytes (buf.drop (bytesLen (parts ++ exts.getD [])))] := by
  simp [formatItems, foldl_add_bytesLen, bytesLen_append]

/-- C4: for every `Key` produced by `create_key`, the item list the
`Debug` impl hands to the renderer ends with a `Key=` segment showing
the buffer's tail after the computed prefix length (the byte length of
every schema and extension item passed to the formatter), and that tail
equals the stored key slice answered by `get_key()`. -/
theorem c4_debug_key_segment (s : KeySeq) (K : List Nat) :
    formatItems s.parts (s.create_key K).extensions
        (some ((s.create_key K).bytes, (s.create_key K).bytes.length))
      = (s.parts ++ extList s).map renderPart
          ++ ["Key=" ++ renderBytes ((s.create_key K).get_key)]
    ∧ (s.create_key K).bytes.drop (bytesLen (s.parts ++ extList s))
        = (s.create_key K).get_key := by
  have hext : (s.create_key K).extensions = s.extensions := by
    rw [create_key_eq]; rfl
  have hkey : (s.create_key K).get_key = K := get_key_create_key s K
  have hdrop : (s.create_key K).bytes.drop (bytesLen (s.parts ++ extList s)) = K := by
    rw [create_key_eq]
    simp only [Key.new]
    rw [← List.append_assoc, bytesLen_append]
    rw [show bytesLen s.parts + bytesLen (extList s)
          = (concatBytes s.parts ++ concatBytes (extList s)).length by
        simp [List.length_append, length_concatBytes]]
    exact List.drop_left _ _
  have hgd : extList s = s.extensions.getD [] := rfl
  constructor
  · rw [formatItems_with_key, hext, ← hgd, hdrop, hkey]
  · rw [hdrop, hkey]

/-- C5: the compact rendering of any ordered item list is each item as
its name immediately followed by the bracketed, comma-separated byte
list, joined with the literal separator, matching the spec's shape
definition `compactSpec`; the given two-part schema renders to the
spec's example string and the empty item list renders to the empty
string. -/
theorem c5_compact_mode :
    (∀ items : List KeyPartItem, format_struct items none none false = compactSpec items)
    ∧ format_struct [("KeyPart1", [10, 20]), ("KeyPart2", [30, 40])] none none false
        = "KeyPart1[10, 20] -> KeyPart2[30, 40]"
    ∧ format_struct [] none none false = "" := by
  refine ⟨?_, by rfl, by rfl⟩
  intro items
  have hfun : (fun it : KeyPartItem =>
      it.1 ++ "[" ++ String.intercalate ", " (it.2.map toString) ++ "]") = renderPart := by
    funext it
    simp [renderPart, renderBytes, String.append_assoc]
  simp [format_struct, formatItems, compactSpec, hfun]

theorem prettyGo_tail (rest : List String) :
    ∀ j : Nat, 1 ≤ j → prettyGo (2 * j) rest = prettySpecTail j rest := by
  induction rest with
  | nil => intro j _; rfl
  | cons p rs ih =>
      intro j hj
      have h2 : ¬(2 * j = 0) := by omega
      have hrec := ih (j + 1) (by omega)
      rw [Nat.mul_succ] at hrec
      simp [prettyGo, prettySpecTail, h2, hrec]

theorem prettyGo_eq_prettySpec (items : List String) :
    prettyGo 0 items = prettySpec items := by
  cases items with
  | nil => rfl
  | cons x rest =>
      have h := prettyGo_tail rest 1 (by omega)
      simp [prettyGo, prettySpec, prettySpecTail] at h ⊢
      simp [h]

/-- C6: the pretty (alternate) mode writes the item at position 0 bare
and every item at position `i ≥ 1` on its own line indented by `2 * i`
spaces behind the corner marker, matching the spec's shape definition
`prettySpec`; the given three-part schema renders to the spec's example
staircase string. -/
theorem c6_pretty_mode :
    (∀ items : List String, prettyGo 0 items = prettySpec items)
    ∧ (∀ parts : List KeyPartItem,
        format_struct parts none none true = prettySpec (parts.map renderPart))
    ∧ (KeySeq.new [("KeyPart1", [10, 20]), ("KeyPart2", [30, 40]),
          ("KeyPart3", [50, 60])]).fmt_debug true
        = "KeyPart1[10, 20]\n  └ KeyPart2[30, 40]\n    └ KeyPart3[50, 60]" := by
  refine ⟨prettyGo_eq_prettySpec, ?_, by rfl⟩
  intro parts
  simp [format_struct, formatItems, prettyGo_eq_prettySpec]
